import Mathlib

/-!
Verification of the hierarchy construction and mutation engine of the
gong-assesment repository: a shallow embedding of the functions
buildHierarchy and removeNode (file src/unnamed/part_003), together with
proofs and refutations of the testable properties stated in the
specification.

Modelling conventions:
- A TypeScript User record becomes a structure with a numeric id, an
  optional numeric managerId, and the opaque descriptive attributes
  (email, names, photo) collapsed into a single string payload field
  that the algorithms never inspect.
- The JavaScript Map of node objects is modelled as a lookup function
  from ids to optional records; Map.set overwrites, so lookup returns
  the last record inserted for a key.
- Node objects created in the first pass are keyed by id, so pushing a
  node object into an array is modelled as appending its id.  The
  children arrays of the UserNode objects returned by buildHierarchy
  are the children function of BuildState, and the returned roots array
  is its roots list.
- The JavaScript falsy test (!user.managerId) holds both for an absent
  managerId and for the value 0; the redundant strict comparison with
  undefined in the source adds nothing to the branch condition.
-/

/-- Embedding of the User interface: id and managerId are the only fields
the two algorithms inspect; the remaining descriptive fields are carried
opaquely as a single payload string. -/
structure User where
  id : Nat
  managerId : Option Nat
  payload : String
deriving DecidableEq

/-- Result state of buildHierarchy: the children array of every node
(keyed by the node's id, initially empty for every id) and the roots
array.  The UserNode graph returned by the source function is exactly
this data: roots is the returned array and children gives the children
array of each node object. -/
structure BuildState where
  children : Nat → List Nat
  roots : List Nat

/-- First pass of buildHierarchy:
users.forEach((user) => userMap.set(user.id, { ...user, children: [] })).
The Map is modelled as a lookup function; Map.set overwrites, so for a
duplicated id the last record wins. -/
def initMap (users : List User) : Nat → Option User :=
  users.foldl (fun m u => fun k => if k = u.id then some u else m k) (fun _ => none)

/-- Body of the second forEach loop of buildHierarchy.  The node pushed is
userMap.get(user.id)!, the unique node object with key user.id, modelled
by the id itself.  The branch mirrors the source:
if (!user.managerId || user.managerId === undefined) push to roots; else
look the manager up in the map, push into its children when found, and
push to roots when not. -/
def buildStep (userMap : Nat → Option User) (s : BuildState) (user : User) : BuildState :=
  match user.managerId with
  | none => { s with roots := s.roots ++ [user.id] }
  | some m =>
    if m = 0 then
      { s with roots := s.roots ++ [user.id] }
    else
      match userMap m with
      | some _ =>
        { s with children := fun q => if q = m then s.children q ++ [user.id] else s.children q }
      | none => { s with roots := s.roots ++ [user.id] }

/-- Embedding of buildHierarchy: first pass fills the id-to-node map, the
second pass folds buildStep over the input in order, starting from empty
children arrays and an empty roots array. -/
def buildHierarchy (users : List User) : BuildState :=
  users.foldl (buildStep (initMap users)) { children := fun _ => [], roots := [] }

/-- Value written into a re-parented record by removeNode:
if (node.managerId) { user.managerId = node.managerId } else
{ user.managerId = undefined }.  The truthy test fails for undefined and
for 0, so both collapse to the no-manager sentinel. -/
def reparentValue (nodeManagerId : Option Nat) : Option Nat :=
  match nodeManagerId with
  | none => none
  | some m => if m = 0 then none else some m

/-- Embedding of removeNode: filter out the records whose id equals the
target's id, then map over the remainder, rewriting managerId to
reparentValue of the target's managerId exactly when it equals the
target's id.  Only the target's id and managerId are consulted, so they
are the two parameters. -/
def removeNode (users : List User) (nodeId : Nat) (nodeManagerId : Option Nat) : List User :=
  (users.filter (fun u => u.id ≠ nodeId)).map (fun u =>
    if u.managerId = some nodeId then { u with managerId := reparentValue nodeManagerId } else u)

/-- Contents of the caller's original array after removeNode returns.  The
map callback of the source assigns user.managerId in place on the shared
record objects, so every record that survives the filter and has
managerId equal to the target's id is mutated inside the caller's array
as well; the filtered-out target record is never visited and stays
intact. -/
def removeNodeInputAfter (users : List User) (nodeId : Nat) (nodeManagerId : Option Nat) : List User :=
  users.map (fun u =>
    if u.id ≠ nodeId ∧ u.managerId = some nodeId then
      { u with managerId := reparentValue nodeManagerId }
    else u)

/-- Placement decision for one record of the second pass, phrased against
a map lookup function: none means the record is pushed to roots, some m
means it is pushed into the children array of node m. -/
def parentLookup (userMap : Nat → Option User) (u : User) : Option Nat :=
  match u.managerId with
  | none => none
  | some m =>
    if m = 0 then none
    else
      match userMap m with
      | some _ => some m
      | none => none

/-- Placement decision of a record relative to the whole input list. -/
def parentRef (users : List User) (u : User) : Option Nat :=
  parentLookup (initMap users) u

/-- Characteristic predicate of the records that buildHierarchy pushes to
the roots array: managerId absent, zero, or not the id of any input
record. -/
def becomesRoot (users : List User) (u : User) : Bool :=
  match u.managerId with
  | none => true
  | some m => m = 0 || !(users.any (fun w => w.id = m))

/-- Characteristic predicate of the records that buildHierarchy pushes
into the children array of node p: managerId equal to p, nonzero, and
the id of some input record. -/
def becomesChildOf (users : List User) (p : Nat) (u : User) : Bool :=
  match u.managerId with
  | none => false
  | some m => decide (m ≠ 0) && decide (m = p) && users.any (fun w => w.id = m)

/-- Lookup of the first input record carrying a given id. -/
def findById (users : List User) (m : Nat) : Option User :=
  users.find? (fun u => u.id = m)

/-- Fuelled length of the manager chain of a record: 0 for a record placed
at the roots, one more than the parent record's rank otherwise; none when
the fuel runs out before the chain terminates (in particular on a
manager cycle). -/
def rankF (users : List User) : Nat → User → Option Nat
  | 0, _ => none
  | fuel + 1, u =>
    match parentRef users u with
    | none => some 0
    | some m =>
      match findById users m with
      | none => none
      | some p => (rankF users fuel p).map (fun r => r + 1)

/-- Rank of a record with enough fuel for any terminating chain over the
input: a chain without repetition visits at most users.length records. -/
def rankOf (users : List User) (u : User) : Option Nat :=
  rankF users (users.length + 1) u

/-- Records of rank k, in input order. -/
def levelList (users : List User) (k : Nat) : List User :=
  users.filter (fun u => rankOf users u = some k)

/-- Fuelled recursive node count of the subtree rooted at a node id: one
for the node plus the counts of the subtrees of its children, cut off
when the fuel runs out. -/
def subtreeCountF (s : BuildState) : Nat → Nat → Nat
  | 0, _ => 0
  | fuel + 1, i => 1 + ((s.children i).map (subtreeCountF s fuel)).sum

/-- Total recursive node count of the forest: the sum of the subtree
counts of the roots. -/
def forestCount (s : BuildState) (fuel : Nat) : Nat :=
  (s.roots.map (subtreeCountF s fuel)).sum

/-- Reachability of a node id from the roots of a built forest by
following children arrays. -/
inductive Reaches (s : BuildState) : Nat → Prop where
  | root : ∀ i, i ∈ s.roots → Reaches s i
  | child : ∀ p c, Reaches s p → c ∈ s.children p → Reaches s c

/-! Characterization of buildHierarchy: the roots array is the input
order restricted to the records that become roots, and each children
array is the input order restricted to the records that become children
of that node. -/

theorem buildStep_cases (um : Nat → Option User) (s : BuildState) (u : User) :
    buildStep um s u =
      match parentLookup um u with
      | none => { s with roots := s.roots ++ [u.id] }
      | some m =>
        { s with children := fun q => if q = m then s.children q ++ [u.id] else s.children q } := by
  unfold buildStep parentLookup
  cases u.managerId with
  | none => rfl
  | some m =>
    by_cases h0 : m = 0
    · simp [h0]
    · simp [h0]
      cases um m <;> rfl

theorem foldl_buildStep_roots (um : Nat → Option User) :
    ∀ (l : List User) (s : BuildState),
      (l.foldl (buildStep um) s).roots
        = s.roots ++ (l.filter (fun u => (parentLookup um u).isNone)).map (fun u => u.id) := by
  intro l
  induction l with
  | nil => intro s; simp
  | cons u l ih =>
    intro s
    rw [List.foldl_cons, ih, buildStep_cases]
    cases h : parentLookup um u with
    | none => simp [List.filter_cons, h]
    | some m => simp [List.filter_cons, h]

theorem foldl_buildStep_children (um : Nat → Option User) :
    ∀ (l : List User) (s : BuildState) (q : Nat),
      (l.foldl (buildStep um) s).children q
        = s.children q ++ (l.filter (fun u => parentLookup um u = some q)).map (fun u => u.id) := by
  intro l
  induction l with
  | nil => intro s q; simp
  | cons u l ih =>
    intro s q
    rw [List.foldl_cons, ih, buildStep_cases]
    cases h : parentLookup um u with
    | none => simp [List.filter_cons, h]
    | some m =>
      by_cases hq : q = m
      · subst hq; simp [List.filter_cons, h]
      · simp [List.filter_cons, h, hq, Ne.symm hq]

theorem initMap_foldl_isSome (l : List User) :
    ∀ (m0 : Nat → Option User) (k : Nat),
      ((l.foldl (fun m u => fun j => if j = u.id then some u else m j) m0) k).isSome
        = (l.any (fun u => u.id = k) || (m0 k).isSome) := by
  induction l with
  | nil => intro m0 k; simp
  | cons u l ih =>
    intro m0 k
    rw [List.foldl_cons, ih]
    by_cases h : k = u.id
    · simp [h]
    · have h2 : u.id ≠ k := fun e => h (Eq.symm e)
      simp [h, h2, Bool.or_assoc]

theorem initMap_isSome (users : List User) (k : Nat) :
    (initMap users k).isSome = users.any (fun u => u.id = k) := by
  unfold initMap
  rw [initMap_foldl_isSome]
  simp

theorem parentRef_eq (users : List User) (u : User) :
    parentRef users u =
      match u.managerId with
      | none => none
      | some m =>
        if m = 0 then none
        else if users.any (fun w => w.id = m) then some m else none := by
  unfold parentRef parentLookup
  cases u.managerId with
  | none => rfl
  | some m =>
    dsimp only
    by_cases h0 : m = 0
    · simp [h0]
    · rw [if_neg h0, if_neg h0]
      have hs := initMap_isSome users m
      by_cases ha : users.any (fun w => w.id = m) = true
      · rw [if_pos ha]
        rw [ha] at hs
        cases h : initMap users m with
        | none => rw [h] at hs; simp at hs
        | some w => rfl
      · have ha2 : users.any (fun w => w.id = m) = false := by
          cases hb : users.any (fun w => w.id = m)
          · rfl
          · exact absurd hb ha
        rw [if_neg ha]
        rw [ha2] at hs
        cases h : initMap users m with
        | none => rfl
        | some w => rw [h] at hs; simp at hs

theorem becomesRoot_eq (users : List User) (u : User) :
    becomesRoot users u = (parentRef users u).isNone := by
  rw [parentRef_eq]
  unfold becomesRoot
  cases u.managerId with
  | none => rfl
  | some m =>
    by_cases h0 : m = 0
    · simp [h0]
    · cases ha : users.any (fun w => w.id = m) <;> simp [h0, ha]

theorem becomesChildOf_iff (users : List User) (p : Nat) (u : User) :
    becomesChildOf users p u = true ↔ parentRef users u = some p := by
  rw [parentRef_eq]
  unfold becomesChildOf
  cases u.managerId with
  | none => simp
  | some m =>
    by_cases h0 : m = 0
    · simp [h0]
    · cases ha : users.any (fun w => w.id = m) with
      | false => simp [h0, ha]
      | true => simp [h0, ha]

theorem roots_eq (users : List User) :
    (buildHierarchy users).roots
      = (users.filter (becomesRoot users)).map (fun u => u.id) := by
  unfold buildHierarchy
  rw [foldl_buildStep_roots]
  simp only [List.nil_append]
  congr 1
  apply List.filter_congr
  intro u hu
  rw [becomesRoot_eq]
  rfl

theorem children_eq (users : List User) (p : Nat) :
    (buildHierarchy users).children p
      = (users.filter (becomesChildOf users p)).map (fun u => u.id) := by
  unfold buildHierarchy
  rw [foldl_buildStep_children]
  simp only [List.nil_append]
  congr 1
  apply List.filter_congr
  intro u hu
  rw [Bool.eq_iff_iff]
  simp [becomesChildOf_iff]
  rfl

/-! Claims about removeNode. -/

/-- Counterexample to claim C3 as stated: removing an id absent from the
relation is not a no-op when a record's managerId dangles onto exactly
that id; the dangling record is re-parented to the target's managerId. -/
theorem removeNode_dangling_not_noop :
    (∀ u ∈ [(⟨1, some 99, "a"⟩ : User)], u.id ≠ 99)
      ∧ removeNode [⟨1, some 99, "a"⟩] 99 (some 7) = [⟨1, some 7, "a"⟩]
      ∧ removeNode [⟨1, some 99, "a"⟩] 99 (some 7) ≠ [⟨1, some 99, "a"⟩] := by
  refine ⟨by decide, by decide, by decide⟩

/-- Claim C3, amended: removing a target whose id is neither any record's
id nor any record's managerId returns the relation unchanged, with no
removal and no re-parenting, and never an error (the function is total). -/
theorem removeNode_noop (users : List User) (nodeId : Nat) (nodeManagerId : Option Nat)
    (hid : ∀ u ∈ users, u.id ≠ nodeId)
    (hmgr : ∀ u ∈ users, u.managerId ≠ some nodeId) :
    removeNode users nodeId nodeManagerId = users := by
  unfold removeNode
  have h1 : users.filter (fun u => u.id ≠ nodeId) = users :=
    List.filter_eq_self.mpr (fun u hu => decide_eq_true (hid u hu))
  have h2 : users.map (fun u =>
      if u.managerId = some nodeId then { u with managerId := reparentValue nodeManagerId } else u)
      = users.map id :=
    List.map_congr_left (fun u hu => by rw [if_neg (hmgr u hu)]; rfl)
  rw [h1, h2, List.map_id]

/-- Witness for removeNode_noop at a concrete relation. -/
theorem removeNode_noop_witness :
    (∀ u ∈ [(⟨1, none, "a"⟩ : User), ⟨2, some 1, "b"⟩], u.id ≠ 3)
      ∧ (∀ u ∈ [(⟨1, none, "a"⟩ : User), ⟨2, some 1, "b"⟩], u.managerId ≠ some 3)
      ∧ removeNode [⟨1, none, "a"⟩, ⟨2, some 1, "b"⟩] 3 none
          = [⟨1, none, "a"⟩, ⟨2, some 1, "b"⟩] :=
  ⟨by decide, by decide,
    removeNode_noop [⟨1, none, "a"⟩, ⟨2, some 1, "b"⟩] 3 none (by decide) (by decide)⟩

/-- Counterexample to claim C2 as stated: when the unique record carrying
the target's id is its own manager, it is removed by the filter, so it
does not appear re-parented in the result, contradicting part (ii) read
over all records with managerId equal to the target id. -/
theorem removeNode_self_manager_dropped :
    ((⟨5, some 5, "x"⟩ : User) ∈ [(⟨5, some 5, "x"⟩ : User)])
      ∧ (⟨5, some 5, "x"⟩ : User).managerId = some 5
      ∧ (([(⟨5, some 5, "x"⟩ : User)]).map (fun u => u.id)).count 5 = 1
      ∧ removeNode [⟨5, some 5, "x"⟩] 5 (some 5) = [] := by
  refine ⟨by decide, by decide, by decide, by decide⟩

/-- Claim C2, amended: for a target id occurring exactly once, the result
contains no record with the target id; every other record whose managerId
equals the target id appears with managerId rewritten to the target's
managerId (collapsed to the sentinel when that value is falsy); every
other record is kept unchanged; and the retained ids keep their input
order. -/
theorem removeNode_correct (users : List User) (nodeId : Nat) (nodeManagerId : Option Nat)
    (hcount : (users.map (fun u => u.id)).count nodeId = 1) :
    (∀ r ∈ removeNode users nodeId nodeManagerId, r.id ≠ nodeId)
    ∧ (∀ r ∈ users, r.id ≠ nodeId → r.managerId = some nodeId →
        ({ r with managerId := reparentValue nodeManagerId } : User)
          ∈ removeNode users nodeId nodeManagerId)
    ∧ (∀ r ∈ users, r.id ≠ nodeId → r.managerId ≠ some nodeId →
        r ∈ removeNode users nodeId nodeManagerId)
    ∧ (removeNode users nodeId nodeManagerId).map (fun u => u.id)
        = (users.filter (fun u => u.id ≠ nodeId)).map (fun u => u.id) := by
  refine ⟨?_, ?_, ?_, ?_⟩
  · intro r hr
    unfold removeNode at hr
    obtain ⟨u, hu, he⟩ := List.mem_map.mp hr
    have hid : u.id ≠ nodeId := by
      have h3 := List.of_mem_filter hu
      simpa using h3
    have hre : r.id = u.id := by
      rw [← he]
      by_cases hm : u.managerId = some nodeId
      · rw [if_pos hm]
      · rw [if_neg hm]
    rw [hre]
    exact hid
  · intro r hr hrid hrm
    unfold removeNode
    exact List.mem_map.mpr
      ⟨r, List.mem_filter.mpr ⟨hr, decide_eq_true hrid⟩, by rw [if_pos hrm]⟩
  · intro r hr hrid hrm
    unfold removeNode
    exact List.mem_map.mpr
      ⟨r, List.mem_filter.mpr ⟨hr, decide_eq_true hrid⟩, by rw [if_neg hrm]⟩
  · unfold removeNode
    rw [List.map_map]
    apply List.map_congr_left
    intro u hu
    by_cases hm : u.managerId = some nodeId
    · simp [hm]
    · simp [hm]

/-- Witness for removeNode_correct at a concrete relation. -/
theorem removeNode_correct_witness :
    (([(⟨1, none, "a"⟩ : User), ⟨2, some 1, "b"⟩, ⟨3, some 2, "c"⟩].map (fun u => u.id)).count 2 = 1)
    ∧ ((∀ r ∈ removeNode [(⟨1, none, "a"⟩ : User), ⟨2, some 1, "b"⟩, ⟨3, some 2, "c"⟩] 2 (some 1), r.id ≠ 2)
      ∧ (∀ r ∈ [(⟨1, none, "a"⟩ : User), ⟨2, some 1, "b"⟩, ⟨3, some 2, "c"⟩], r.id ≠ 2 → r.managerId = some 2 →
          ({ r with managerId := reparentValue (some 1) } : User)
            ∈ removeNode [(⟨1, none, "a"⟩ : User), ⟨2, some 1, "b"⟩, ⟨3, some 2, "c"⟩] 2 (some 1))
      ∧ (∀ r ∈ [(⟨1, none, "a"⟩ : User), ⟨2, some 1, "b"⟩, ⟨3, some 2, "c"⟩], r.id ≠ 2 → r.managerId ≠ some 2 →
          r ∈ removeNode [(⟨1, none, "a"⟩ : User), ⟨2, some 1, "b"⟩, ⟨3, some 2, "c"⟩] 2 (some 1))
      ∧ (removeNode [(⟨1, none, "a"⟩ : User), ⟨2, some 1, "b"⟩, ⟨3, some 2, "c"⟩] 2 (some 1)).map (fun u => u.id)
          = ([(⟨1, none, "a"⟩ : User), ⟨2, some 1, "b"⟩, ⟨3, some 2, "c"⟩].filter (fun u => u.id ≠ 2)).map (fun u => u.id)) :=
  ⟨by decide,
    removeNode_correct [(⟨1, none, "a"⟩ : User), ⟨2, some 1, "b"⟩, ⟨3, some 2, "c"⟩] 2 (some 1) (by decide)⟩

/-- Claim C4 is violated by the code: removeNode assigns managerId in
place on the record objects shared with the caller, so with relation
[{id 2, managerId 1}] and target {id 1, no manager} the caller's array
holds a mutated record after the call. -/
theorem removeNode_mutates_input :
    removeNodeInputAfter [⟨2, some 1, "b"⟩] 1 none = [⟨2, none, "b"⟩]
      ∧ removeNodeInputAfter [⟨2, some 1, "b"⟩] 1 none ≠ [⟨2, some 1, "b"⟩] := by
  refine ⟨by decide, by decide⟩

/-- Claim C9: the value 0 is treated exactly like the absent sentinel —
buildHierarchy sends a record with managerId 0 to the roots even when a
record with id 0 exists, and removeNode applied to a target with
managerId 0 rewrites each former subordinate's managerId to the absent
sentinel rather than to 0. -/
theorem zero_managerId_is_falsy (users : List User) (u : User) (hu : u ∈ users)
    (h0 : u.managerId = some 0) (hzero : ∃ w ∈ users, w.id = 0)
    (S : List User) (nodeId : Nat) (r : User) (hr : r ∈ S) (hrid : r.id ≠ nodeId)
    (hrm : r.managerId = some nodeId) :
    u.id ∈ (buildHierarchy users).roots
    ∧ reparentValue (some 0) = none
    ∧ ({ r with managerId := none } : User) ∈ removeNode S nodeId (some 0) := by
  refine ⟨?_, rfl, ?_⟩
  · rw [roots_eq]
    refine List.mem_map.mpr ⟨u, List.mem_filter.mpr ⟨hu, ?_⟩, rfl⟩
    unfold becomesRoot
    rw [h0]
    simp
  · unfold removeNode
    exact List.mem_map.mpr
      ⟨r, List.mem_filter.mpr ⟨hr, decide_eq_true hrid⟩, by rw [if_pos hrm]; rfl⟩

/-- Witness for zero_managerId_is_falsy at concrete inputs. -/
theorem zero_managerId_is_falsy_witness :
    ((⟨1, some 0, "b"⟩ : User) ∈ [(⟨0, none, "z"⟩ : User), ⟨1, some 0, "b"⟩])
    ∧ (∃ w ∈ [(⟨0, none, "z"⟩ : User), ⟨1, some 0, "b"⟩], w.id = 0)
    ∧ ((⟨1, some 0, "b"⟩ : User).id ∈ (buildHierarchy [(⟨0, none, "z"⟩ : User), ⟨1, some 0, "b"⟩]).roots
      ∧ reparentValue (some 0) = none
      ∧ ({ (⟨4, some 3, "c"⟩ : User) with managerId := none } : User) ∈ removeNode [(⟨4, some 3, "c"⟩ : User)] 3 (some 0)) :=
  ⟨by decide, by decide,
    zero_managerId_is_falsy [(⟨0, none, "z"⟩ : User), ⟨1, some 0, "b"⟩] ⟨1, some 0, "b"⟩
      (by decide) (by decide) (by decide)
      [(⟨4, some 3, "c"⟩ : User)] 3 ⟨4, some 3, "c"⟩ (by decide) (by decide) (by decide)⟩

/-! Claims about buildHierarchy placement and order. -/

/-- Injectivity of record identity on inputs whose ids are pairwise
distinct. -/
theorem id_inj_of_nodup (users : List User) (hnd : (users.map (fun u => u.id)).Nodup)
    {u v : User} (hu : u ∈ users) (hv : v ∈ users) (he : u.id = v.id) : u = v :=
  List.inj_on_of_nodup_map hnd hu hv he

/-- Computation of the placement of a record that resolves to a parent:
managerId nonzero and matched by some input id. -/
theorem parentRef_resolves (users : List User) (r : User) (p : Nat)
    (hm : r.managerId = some p) (hp : p ≠ 0) (hid : ∃ w ∈ users, w.id = p) :
    parentRef users r = some p := by
  rw [parentRef_eq, hm]
  dsimp only
  have ha : users.any (fun w => w.id = p) = true := by
    obtain ⟨w, hw, he⟩ := hid
    exact List.any_eq_true.mpr ⟨w, hw, decide_eq_true he⟩
  rw [if_neg hp, if_pos ha]

/-- Claim C6: a record whose managerId is the falsy sentinel (absent or 0)
or dangles outside the input ids always appears in the roots array; the
dangling case degrades to a root, never an error. -/
theorem root_rule (users : List User) (u : User) (hu : u ∈ users)
    (h : u.managerId = none ∨ u.managerId = some 0
          ∨ ∃ m, u.managerId = some m ∧ ∀ w ∈ users, w.id ≠ m) :
    u.id ∈ (buildHierarchy users).roots := by
  rw [roots_eq]
  refine List.mem_map.mpr ⟨u, List.mem_filter.mpr ⟨hu, ?_⟩, rfl⟩
  unfold becomesRoot
  rcases h with h | h | ⟨m, hm, hd⟩
  · rw [h]
  · rw [h]
    simp
  · rw [hm]
    dsimp only
    have ha : users.any (fun w => w.id = m) = false := by
      rw [List.any_eq_false]
      intro w hw
      simpa using hd w hw
    rw [ha]
    simp

/-- Witness for root_rule: a dangling manager reference. -/
theorem root_rule_witness :
    ((⟨1, some 99, "a"⟩ : User) ∈ [(⟨1, some 99, "a"⟩ : User)])
    ∧ ((⟨1, some 99, "a"⟩ : User).managerId = none ∨ (⟨1, some 99, "a"⟩ : User).managerId = some 0
        ∨ ∃ m, (⟨1, some 99, "a"⟩ : User).managerId = some m
            ∧ ∀ w ∈ [(⟨1, some 99, "a"⟩ : User)], w.id ≠ m)
    ∧ (⟨1, some 99, "a"⟩ : User).id ∈ (buildHierarchy [(⟨1, some 99, "a"⟩ : User)]).roots :=
  ⟨by decide, by decide,
    root_rule [(⟨1, some 99, "a"⟩ : User)] ⟨1, some 99, "a"⟩ (by decide) (by decide)⟩

/-- Claim C7: the roots array is the input order restricted to the records
that become roots, and each children array is the input order restricted
to the records that become children of that node. -/
theorem order_preservation (users : List User) :
    (buildHierarchy users).roots = (users.filter (becomesRoot users)).map (fun u => u.id)
    ∧ ∀ p, (buildHierarchy users).children p
        = (users.filter (becomesChildOf users p)).map (fun u => u.id) :=
  ⟨roots_eq users, fun p => children_eq users p⟩

/-- Claim C8: buildHierarchy is a pure function of the relation value, so
two invocations on the same unchanged relation produce structurally
identical forests; the embedding is deterministic by construction,
mirroring a source algorithm that reads nothing but its argument. -/
theorem build_deterministic (r1 r2 : List User) (h : r1 = r2) :
    (buildHierarchy r1).roots = (buildHierarchy r2).roots
    ∧ ∀ p, (buildHierarchy r1).children p = (buildHierarchy r2).children p := by
  subst h
  exact ⟨rfl, fun p => rfl⟩

/-- Witness for build_deterministic at a concrete relation. -/
theorem build_deterministic_witness :
    (buildHierarchy [(⟨1, none, "a"⟩ : User), ⟨2, some 1, "b"⟩]).roots
        = (buildHierarchy [(⟨1, none, "a"⟩ : User), ⟨2, some 1, "b"⟩]).roots
    ∧ ∀ p, (buildHierarchy [(⟨1, none, "a"⟩ : User), ⟨2, some 1, "b"⟩]).children p
        = (buildHierarchy [(⟨1, none, "a"⟩ : User), ⟨2, some 1, "b"⟩]).children p :=
  build_deterministic [(⟨1, none, "a"⟩ : User), ⟨2, some 1, "b"⟩]
    [(⟨1, none, "a"⟩ : User), ⟨2, some 1, "b"⟩] rfl

/-- Counterexample to claim C5 as stated: with a record of id 0 present,
a record whose managerId is 0 is not placed under node 0 but in the roots
array, because the falsy test fires on the identifier 0. -/
theorem parent_child_zero_fails :
    ((⟨1, some 0, "b"⟩ : User) ∈ [(⟨0, none, "z"⟩ : User), ⟨1, some 0, "b"⟩])
    ∧ (∃ w ∈ [(⟨0, none, "z"⟩ : User), ⟨1, some 0, "b"⟩], w.id = 0)
    ∧ (buildHierarchy [(⟨0, none, "z"⟩ : User), ⟨1, some 0, "b"⟩]).children 0 = []
    ∧ (buildHierarchy [(⟨0, none, "z"⟩ : User), ⟨1, some 0, "b"⟩]).roots = [0, 1] := by
  refine ⟨by decide, by decide, by decide, by decide⟩

/-- Claim C5, amended: over inputs with pairwise distinct ids, a record r
with nonzero managerId p matching some input id appears in the children
array of node p and nowhere else — not in the roots array and not in the
children array of any other node. -/
theorem parent_child_rule (users : List User) (r : User) (p : Nat)
    (hnd : (users.map (fun u => u.id)).Nodup)
    (hr : r ∈ users) (hm : r.managerId = some p) (hp : p ≠ 0)
    (hid : ∃ w ∈ users, w.id = p) :
    r.id ∈ (buildHierarchy users).children p
    ∧ r.id ∉ (buildHierarchy users).roots
    ∧ ∀ q, q ≠ p → r.id ∉ (buildHierarchy users).children q := by
  have hpr : parentRef users r = some p := parentRef_resolves users r p hm hp hid
  refine ⟨?_, ?_, ?_⟩
  · rw [children_eq]
    exact List.mem_map.mpr
      ⟨r, List.mem_filter.mpr ⟨hr, (becomesChildOf_iff users p r).mpr hpr⟩, rfl⟩
  · intro contra
    rw [roots_eq] at contra
    obtain ⟨u, huf, hue⟩ := List.mem_map.mp contra
    have hu : u ∈ users := List.mem_of_mem_filter huf
    have hb : becomesRoot users u = true := List.of_mem_filter huf
    have heq : u = r := id_inj_of_nodup users hnd hu hr hue
    rw [heq, becomesRoot_eq, hpr] at hb
    simp at hb
  · intro q hq contra
    rw [children_eq] at contra
    obtain ⟨u, huf, hue⟩ := List.mem_map.mp contra
    have hu : u ∈ users := List.mem_of_mem_filter huf
    have hb : becomesChildOf users q u = true := List.of_mem_filter huf
    have heq : u = r := id_inj_of_nodup users hnd hu hr hue
    rw [heq] at hb
    have := (becomesChildOf_iff users q r).mp hb
    rw [hpr] at this
    exact hq (Option.some_injective Nat this).symm

/-- Witness for parent_child_rule at a concrete relation. -/
theorem parent_child_rule_witness :
    (([(⟨1, none, "a"⟩ : User), ⟨2, some 1, "b"⟩, ⟨3, some 1, "c"⟩].map (fun u => u.id)).Nodup)
    ∧ ((⟨2, some 1, "b"⟩ : User) ∈ [(⟨1, none, "a"⟩ : User), ⟨2, some 1, "b"⟩, ⟨3, some 1, "c"⟩])
    ∧ (∃ w ∈ [(⟨1, none, "a"⟩ : User), ⟨2, some 1, "b"⟩, ⟨3, some 1, "c"⟩], w.id = 1)
    ∧ ((⟨2, some 1, "b"⟩ : User).id
        ∈ (buildHierarchy [(⟨1, none, "a"⟩ : User), ⟨2, some 1, "b"⟩, ⟨3, some 1, "c"⟩]).children 1
      ∧ (⟨2, some 1, "b"⟩ : User).id
          ∉ (buildHierarchy [(⟨1, none, "a"⟩ : User), ⟨2, some 1, "b"⟩, ⟨3, some 1, "c"⟩]).roots
      ∧ ∀ q, q ≠ 1 → (⟨2, some 1, "b"⟩ : User).id
          ∉ (buildHierarchy [(⟨1, none, "a"⟩ : User), ⟨2, some 1, "b"⟩, ⟨3, some 1, "c"⟩]).children q) :=
  ⟨by decide, by decide, by decide,
    parent_child_rule [(⟨1, none, "a"⟩ : User), ⟨2, some 1, "b"⟩, ⟨3, some 1, "c"⟩]
      ⟨2, some 1, "b"⟩ 1 (by decide) (by decide) (by decide) (by decide) (by decide)⟩

/-! Claim C10: self-referencing records. -/

/-- Counterexample to claim C10 as stated: a record whose managerId equals
its own id 0 trips the falsy test, so it is placed in the roots array
(and is reachable there), not appended to its own children array. -/
theorem self_reference_zero_fails :
    ((⟨0, some 0, "a"⟩ : User) ∈ [(⟨0, some 0, "a"⟩ : User)])
    ∧ (⟨0, some 0, "a"⟩ : User).managerId = some (⟨0, some 0, "a"⟩ : User).id
    ∧ (buildHierarchy [(⟨0, some 0, "a"⟩ : User)]).roots = [0]
    ∧ (buildHierarchy [(⟨0, some 0, "a"⟩ : User)]).children 0 = []
    ∧ Reaches (buildHierarchy [(⟨0, some 0, "a"⟩ : User)]) 0 := by
  refine ⟨by decide, by decide, by decide, by decide, Reaches.root 0 ?_⟩
  have h : (buildHierarchy [(⟨0, some 0, "a"⟩ : User)]).roots = [0] := by decide
  rw [h]
  exact List.mem_singleton.mpr rfl

/-- Claim C10, amended: over inputs with pairwise distinct ids, a record
whose nonzero managerId equals its own id is not placed in the roots
array; its node is appended to its own children array, and it is not
reachable from any root of the returned forest. -/
theorem self_reference_unreachable (users : List User) (u : User)
    (hnd : (users.map (fun x => x.id)).Nodup)
    (hu : u ∈ users) (hself : u.managerId = some u.id) (h0 : u.id ≠ 0) :
    u.id ∉ (buildHierarchy users).roots
    ∧ u.id ∈ (buildHierarchy users).children u.id
    ∧ ¬ Reaches (buildHierarchy users) u.id := by
  have hpr : parentRef users u = some u.id :=
    parentRef_resolves users u u.id hself h0 ⟨u, hu, rfl⟩
  have hroots : u.id ∉ (buildHierarchy users).roots := by
    intro contra
    rw [roots_eq] at contra
    obtain ⟨w, hwf, hwe⟩ := List.mem_map.mp contra
    have hw : w ∈ users := List.mem_of_mem_filter hwf
    have hb : becomesRoot users w = true := List.of_mem_filter hwf
    have heq : w = u := id_inj_of_nodup users hnd hw hu hwe
    rw [heq, becomesRoot_eq, hpr] at hb
    simp at hb
  have hchildonly : ∀ q, u.id ∈ (buildHierarchy users).children q → q = u.id := by
    intro q hq
    rw [children_eq] at hq
    obtain ⟨w, hwf, hwe⟩ := List.mem_map.mp hq
    have hw : w ∈ users := List.mem_of_mem_filter hwf
    have hb : becomesChildOf users q w = true := List.of_mem_filter hwf
    have heq : w = u := id_inj_of_nodup users hnd hw hu hwe
    rw [heq] at hb
    have h2 := (becomesChildOf_iff users q u).mp hb
    rw [hpr] at h2
    exact (Option.some_injective Nat h2).symm
  refine ⟨hroots, ?_, ?_⟩
  · rw [children_eq]
    exact List.mem_map.mpr
      ⟨u, List.mem_filter.mpr ⟨hu, (becomesChildOf_iff users u.id u).mpr hpr⟩, rfl⟩
  · have hne : ∀ i, Reaches (buildHierarchy users) i → i ≠ u.id := by
      intro i hi
      induction hi with
      | root j hj => exact fun he => hroots (he ▸ hj)
      | child p c hp hc ih => exact fun he => ih (hchildonly p (he ▸ hc))
    exact fun hr => hne u.id hr rfl

/-- Witness for self_reference_unreachable at a concrete relation. -/
theorem self_reference_unreachable_witness :
    (([(⟨1, some 1, "a"⟩ : User)].map (fun x => x.id)).Nodup)
    ∧ ((⟨1, some 1, "a"⟩ : User) ∈ [(⟨1, some 1, "a"⟩ : User)])
    ∧ ((⟨1, some 1, "a"⟩ : User).managerId = some (⟨1, some 1, "a"⟩ : User).id)
    ∧ ((⟨1, some 1, "a"⟩ : User).id ∉ (buildHierarchy [(⟨1, some 1, "a"⟩ : User)]).roots
      ∧ (⟨1, some 1, "a"⟩ : User).id
          ∈ (buildHierarchy [(⟨1, some 1, "a"⟩ : User)]).children (⟨1, some 1, "a"⟩ : User).id
      ∧ ¬ Reaches (buildHierarchy [(⟨1, some 1, "a"⟩ : User)]) (⟨1, some 1, "a"⟩ : User).id) :=
  ⟨by decide, by decide, by decide,
    self_reference_unreachable [(⟨1, some 1, "a"⟩ : User)] ⟨1, some 1, "a"⟩
      (by decide) (by decide) (by decide) (by decide)⟩

/-! Counting machinery for claim C1. -/

theorem sum_map_zero {α : Type} (l : List α) : (l.map (fun _ => (0 : Nat))).sum = 0 := by
  induction l with
  | nil => rfl
  | cons a l ih => simpa using ih

theorem sum_map_add {α : Type} (l : List α) (f g : α → Nat) :
    (l.map (fun x => f x + g x)).sum = (l.map f).sum + (l.map g).sum := by
  induction l with
  | nil => rfl
  | cons a l ih =>
    simp only [List.map_cons, List.sum_cons, ih]
    omega

theorem sum_map_one {α : Type} (l : List α) : (l.map (fun _ => (1 : Nat))).sum = l.length := by
  induction l with
  | nil => rfl
  | cons a l ih =>
    simp only [List.map_cons, List.sum_cons, ih, List.length_cons]
    omega

theorem sum_filter_map {α : Type} {P : α → Prop} [DecidablePred P] (l : List α) (g : α → Nat) :
    ((l.filter (fun x => P x)).map g).sum = (l.map (fun x => if P x then g x else 0)).sum := by
  induction l with
  | nil => rfl
  | cons a l ih =>
    rw [List.filter_cons]
    by_cases h : P a
    · rw [if_pos (decide_eq_true h)]
      simp only [List.map_cons, List.sum_cons, ih, if_pos h]
    · rw [if_neg (fun hc => h (of_decide_eq_true hc))]
      simp only [List.map_cons, List.sum_cons, ih, if_neg h]
      omega

theorem sum_map_comm {α β : Type} (l1 : List α) (l2 : List β) (F : α → β → Nat) :
    (l1.map (fun u => (l2.map (F u)).sum)).sum
      = (l2.map (fun v => (l1.map (fun u => F u v)).sum)).sum := by
  induction l1 with
  | nil => simp [sum_map_zero]
  | cons a l ih =>
    simp only [List.map_cons, List.sum_cons, ih]
    rw [← sum_map_add]

theorem sum_ite_single {α : Type} [DecidableEq α] :
    ∀ (l : List α), l.Nodup → ∀ (a : α), a ∈ l → ∀ (c : Nat),
      (l.map (fun x => if x = a then c else 0)).sum = c := by
  intro l
  induction l with
  | nil => intro _ a ha; cases ha
  | cons b l ih =>
    intro hnd a ha c
    rw [List.map_cons, List.sum_cons]
    rcases List.mem_cons.mp ha with h | h
    · subst h
      rw [if_pos rfl]
      have hnotin : a ∉ l := (List.nodup_cons.mp hnd).1
      have hzero : (l.map (fun x => if x = a then c else 0)).sum = 0 := by
        rw [List.map_congr_left (g := fun _ => 0) ?_, sum_map_zero]
        intro x hx
        rw [if_neg (fun he => hnotin (by rw [← he]; exact hx))]
      rw [hzero]
      omega
    · have hba : b ≠ a := by
        intro he
        exact (List.nodup_cons.mp hnd).1 (by rw [he]; exact h)
      rw [if_neg hba, ih (List.nodup_cons.mp hnd).2 a h c]
      omega

theorem sum_range_ite_single (N r : Nat) (hr : r < N) (c : Nat) :
    ((List.range N).map (fun j => if j = r then c else 0)).sum = c :=
  sum_ite_single (List.range N) (List.nodup_range N) r (List.mem_range.mpr hr) c

theorem length_eq_sum_level_lengths {α : Type} (g : α → Option Nat) (N : Nat) :
    ∀ (l : List α), (∀ u ∈ l, ∃ r, g u = some r ∧ r < N) →
      ((List.range N).map (fun j => (l.filter (fun u => g u = some j)).length)).sum = l.length := by
  intro l
  induction l with
  | nil =>
    intro _
    rw [List.map_congr_left (g := fun _ => 0) (fun j _ => by rw [List.filter_nil]; rfl)]
    rw [sum_map_zero, List.length_nil]
  | cons u l ih =>
    intro h
    obtain ⟨r, hr, hrN⟩ := h u (List.mem_cons_self u l)
    have hl := fun v hv => h v (List.mem_cons_of_mem u hv)
    have hstep : ∀ j, ((u :: l).filter (fun v => g v = some j)).length
        = (l.filter (fun v => g v = some j)).length + (if j = r then 1 else 0) := by
      intro j
      rw [List.filter_cons]
      by_cases hj : g u = some j
      · have hjr : j = r := by
          rw [hr] at hj
          exact (Option.some_injective Nat hj).symm
        rw [if_pos (decide_eq_true hj), List.length_cons, if_pos hjr]
      · have hjr : j ≠ r := fun he => hj (by rw [he]; exact hr)
        rw [if_neg (fun hc => hj (of_decide_eq_true hc)), if_neg hjr]
        omega
    rw [List.map_congr_left (fun j _ => hstep j), sum_map_add, ih hl,
      sum_range_ite_single N r hrN 1, List.length_cons]

theorem rankF_succ_root (users : List User) (fuel : Nat) (u : User)
    (hp : parentRef users u = none) : rankF users (fuel + 1) u = some 0 := by
  simp only [rankF, hp]

theorem rankF_succ_nofind (users : List User) (fuel : Nat) (u : User) (m : Nat)
    (hp : parentRef users u = some m) (hf : findById users m = none) :
    rankF users (fuel + 1) u = none := by
  simp only [rankF, hp, hf]

theorem rankF_succ_step (users : List User) (fuel : Nat) (u : User) (m : Nat) (p : User)
    (hp : parentRef users u = some m) (hf : findById users m = some p) :
    rankF users (fuel + 1) u = (rankF users fuel p).map (fun r => r + 1) := by
  simp only [rankF, hp, hf]

theorem rankF_lt (users : List User) :
    ∀ (fuel : Nat) (u : User) (r : Nat), rankF users fuel u = some r → r < fuel := by
  intro fuel
  induction fuel with
  | zero =>
    intro u r h
    simp only [rankF] at h
    exact Option.noConfusion h
  | succ f ih =>
    intro u r h
    cases hp : parentRef users u with
    | none =>
      rw [rankF_succ_root users f u hp] at h
      have : 0 = r := Option.some_injective Nat h
      omega
    | some m =>
      cases hf : findById users m with
      | none =>
        rw [rankF_succ_nofind users f u m hp hf] at h
        cases h
      | some p =>
        rw [rankF_succ_step users f u m p hp hf] at h
        cases hr : rankF users f p with
        | none => rw [hr] at h; cases h
        | some r0 =>
          rw [hr] at h
          simp only [Option.map_some'] at h
          have h1 := ih p r0 hr
          have h2 : r0 + 1 = r := Option.some_injective Nat h
          omega

theorem rankF_mono (users : List User) :
    ∀ (fuel : Nat) (u : User) (r : Nat),
      rankF users fuel u = some r → rankF users (fuel + 1) u = some r := by
  intro fuel
  induction fuel with
  | zero =>
    intro u r h
    simp only [rankF] at h
    exact Option.noConfusion h
  | succ f ih =>
    intro u r h
    cases hp : parentRef users u with
    | none =>
      rw [rankF_succ_root users f u hp] at h
      rw [rankF_succ_root users (f + 1) u hp]
      exact h
    | some m =>
      cases hf : findById users m with
      | none =>
        rw [rankF_succ_nofind users f u m hp hf] at h
        cases h
      | some p =>
        rw [rankF_succ_step users f u m p hp hf] at h
        rw [rankF_succ_step users (f + 1) u m p hp hf]
        cases hr : rankF users f p with
        | none => rw [hr] at h; cases h
        | some r0 =>
          rw [hr] at h
          rw [ih p r0 hr]
          exact h

theorem rankOf_zero_iff (users : List User) (u : User) :
    rankOf users u = some 0 ↔ parentRef users u = none := by
  unfold rankOf
  constructor
  · intro h
    cases hp : parentRef users u with
    | none => rfl
    | some m =>
      exfalso
      cases hf : findById users m with
      | none =>
        rw [rankF_succ_nofind users users.length u m hp hf] at h
        cases h
      | some p =>
        rw [rankF_succ_step users users.length u m p hp hf] at h
        cases hr : rankF users users.length p with
        | none => rw [hr] at h; cases h
        | some r0 =>
          rw [hr] at h
          simp only [Option.map_some'] at h
          exact Nat.succ_ne_zero r0 (Option.some_injective Nat h)
  · intro h
    exact rankF_succ_root users users.length u h

theorem parentRef_some_elim (users : List User) (u : User) (m : Nat)
    (h : parentRef users u = some m) :
    u.managerId = some m ∧ m ≠ 0 ∧ users.any (fun w => w.id = m) = true := by
  rw [parentRef_eq] at h
  cases hm : u.managerId with
  | none => rw [hm] at h; cases h
  | some m2 =>
    rw [hm] at h
    dsimp only at h
    by_cases h0 : m2 = 0
    · rw [if_pos h0] at h; cases h
    · rw [if_neg h0] at h
      by_cases ha : users.any (fun w => w.id = m2) = true
      · rw [if_pos ha] at h
        have he : m2 = m := Option.some_injective Nat h
        subst he
        exact ⟨rfl, h0, ha⟩
      · rw [if_neg ha] at h; cases h

theorem findById_of_any (users : List User) (m : Nat)
    (ha : users.any (fun w => w.id = m) = true) :
    ∃ p, findById users m = some p ∧ p ∈ users ∧ p.id = m := by
  obtain ⟨w, hw, he⟩ := List.any_eq_true.mp ha
  unfold findById
  cases hf : users.find? (fun u => u.id = m) with
  | none =>
    exfalso
    exact (List.find?_eq_none.mp hf w hw) he
  | some p =>
    have hp2 := List.find?_some hf
    exact ⟨p, rfl, List.mem_of_find?_eq_some hf, by simpa using hp2⟩

theorem rank_succ_iff (users : List User)
    (hAll : ∀ u ∈ users, (rankOf users u).isSome)
    (v : User) (hv : v ∈ users) (m : Nat) (hm : parentRef users v = some m)
    (p : User) (hp : findById users m = some p) (k : Nat) :
    rankOf users v = some (k + 1) ↔ rankOf users p = some k := by
  constructor
  · intro h
    unfold rankOf at h
    rw [rankF_succ_step users users.length v m p hm hp] at h
    cases hr : rankF users users.length p with
    | none => rw [hr] at h; cases h
    | some r0 =>
      rw [hr] at h
      simp only [Option.map_some'] at h
      have hk : r0 = k := by
        have := Option.some_injective Nat h
        omega
      subst hk
      exact rankF_mono users users.length p r0 hr
  · intro h
    have hsome := hAll v hv
    cases hj : rankOf users v with
    | none => rw [hj] at hsome; exact absurd hsome (by simp)
    | some j =>
      have hj2 := hj
      unfold rankOf at hj2
      rw [rankF_succ_step users users.length v m p hm hp] at hj2
      cases hr : rankF users users.length p with
      | none => rw [hr] at hj2; cases hj2
      | some r0 =>
        rw [hr] at hj2
        simp only [Option.map_some'] at hj2
        have hpr : rankOf users p = some r0 := rankF_mono users users.length p r0 hr
        rw [h] at hpr
        have hr0 : k = r0 := Option.some_injective Nat hpr
        have hjv : r0 + 1 = j := Option.some_injective Nat hj2
        have hk : j = k + 1 := by omega
        rw [hk]

theorem sum_map_one_add {α : Type} (l : List α) (g : α → Nat) :
    (l.map (fun x => 1 + g x)).sum = l.length + (l.map g).sum := by
  induction l with
  | nil => rfl
  | cons a l ih =>
    simp only [List.map_cons, List.sum_cons, ih, List.length_cons]
    omega

theorem ite_sum_push {β : Type} (P : Prop) [Decidable P] (l : List β) (h : β → Nat) :
    (if P then (l.map h).sum else 0) = (l.map (fun v => if P then h v else 0)).sum := by
  by_cases hp : P
  · rw [if_pos hp]
    congr 1
    apply List.map_congr_left
    intro v _
    rw [if_pos hp]
  · rw [if_neg hp,
      List.map_congr_left (g := fun _ => 0) (fun v _ => by rw [if_neg hp]), sum_map_zero]

theorem sum_filter_map_bool {α : Type} (l : List α) (p : α → Bool) (g : α → Nat) :
    ((l.filter p).map g).sum = (l.map (fun x => if p x = true then g x else 0)).sum := by
  induction l with
  | nil => rfl
  | cons a l ih =>
    rw [List.filter_cons, List.map_cons, List.sum_cons]
    by_cases h : p a = true
    · rw [if_pos h, List.map_cons, List.sum_cons, ih, if_pos h]
    · rw [if_neg h, ih, if_neg h]
      omega

theorem child_indicator_sum (users : List User)
    (hnd : (users.map (fun u => u.id)).Nodup)
    (hAll : ∀ u ∈ users, (rankOf users u).isSome)
    (k : Nat) (v : User) (hv : v ∈ users) (c : Nat) :
    (users.map (fun u =>
        if rankOf users u = some k then
          (if becomesChildOf users u.id v = true then c else 0)
        else 0)).sum
      = if rankOf users v = some (k + 1) then c else 0 := by
  cases hpv : parentRef users v with
  | none =>
    have hzero : ∀ u ∈ users, (if rankOf users u = some k then
        (if becomesChildOf users u.id v = true then c else 0) else 0) = 0 := by
      intro u _
      have hb : becomesChildOf users u.id v = false := by
        cases hb2 : becomesChildOf users u.id v
        · rfl
        · exfalso
          have h3 := (becomesChildOf_iff users u.id v).mp hb2
          rw [hpv] at h3
          exact Option.noConfusion h3
      rw [hb, if_neg Bool.false_ne_true, ite_self]
    rw [List.map_congr_left (g := fun _ => 0) hzero, sum_map_zero]
    have hv0 : rankOf users v = some 0 := (rankOf_zero_iff users v).mpr hpv
    rw [if_neg (fun hc => by
      rw [hv0] at hc
      have := Option.some_injective Nat hc
      omega)]
  | some m =>
    obtain ⟨hvm, hm0, hany⟩ := parentRef_some_elim users v m hpv
    obtain ⟨p, hfp, hpmem, hpid⟩ := findById_of_any users m hany
    have husers : users.Nodup := List.Nodup.of_map _ hnd
    have hpt : ∀ u ∈ users,
        (if rankOf users u = some k then
          (if becomesChildOf users u.id v = true then c else 0) else 0)
          = (if u = p then (if rankOf users p = some k then c else 0) else 0) := by
      intro u hu
      by_cases he : u = p
      · subst he
        rw [if_pos rfl]
        have hbc : becomesChildOf users u.id v = true := by
          apply (becomesChildOf_iff users u.id v).mpr
          rw [hpid]
          exact hpv
        rw [if_pos hbc]
      · rw [if_neg he]
        have hbc : becomesChildOf users u.id v = false := by
          cases hb2 : becomesChildOf users u.id v
          · rfl
          · exfalso
            have h3 := (becomesChildOf_iff users u.id v).mp hb2
            rw [hpv] at h3
            have h4 : m = u.id := Option.some_injective Nat h3
            refine he (id_inj_of_nodup users hnd hu hpmem ?_)
            rw [hpid]
            exact h4.symm
        rw [hbc, if_neg Bool.false_ne_true, ite_self]
    rw [List.map_congr_left hpt, sum_ite_single users husers p hpmem _]
    have hiff := rank_succ_iff users hAll v hv m hpv p hfp k
    by_cases hk : rankOf users p = some k
    · rw [if_pos hk, if_pos (hiff.mpr hk)]
    · rw [if_neg hk, if_neg (fun hc => hk (hiff.mp hc))]

theorem level_sum (users : List User)
    (hnd : (users.map (fun u => u.id)).Nodup)
    (hAll : ∀ u ∈ users, (rankOf users u).isSome) :
    ∀ (fuel k : Nat),
      ((levelList users k).map (fun u => subtreeCountF (buildHierarchy users) fuel u.id)).sum
        = ((List.range fuel).map (fun j => (levelList users (k + j)).length)).sum := by
  intro fuel
  induction fuel with
  | zero =>
    intro k
    have hz : ∀ u ∈ levelList users k, subtreeCountF (buildHierarchy users) 0 u.id = 0 :=
      fun u _ => rfl
    rw [List.map_congr_left (g := fun _ => 0) hz, sum_map_zero]
    rfl
  | succ f ih =>
    intro k
    have hstep : ∀ u ∈ levelList users k,
        subtreeCountF (buildHierarchy users) (f + 1) u.id
          = 1 + (users.map (fun v =>
              if becomesChildOf users u.id v = true
              then subtreeCountF (buildHierarchy users) f v.id else 0)).sum := by
      intro u _
      have h1 : subtreeCountF (buildHierarchy users) (f + 1) u.id
          = 1 + (((buildHierarchy users).children u.id).map
              (subtreeCountF (buildHierarchy users) f)).sum := rfl
      rw [h1, children_eq users u.id, List.map_map]
      have h2 : ((users.filter (becomesChildOf users u.id)).map
            (subtreeCountF (buildHierarchy users) f ∘ fun v => v.id)).sum
          = (users.map (fun v => if becomesChildOf users u.id v = true
              then subtreeCountF (buildHierarchy users) f v.id else 0)).sum := by
        rw [sum_filter_map_bool]
        rfl
      rw [h2]
    rw [List.map_congr_left hstep, sum_map_one_add]
    have h3 : ((levelList users k).map (fun u => (users.map (fun v =>
          if becomesChildOf users u.id v = true
          then subtreeCountF (buildHierarchy users) f v.id else 0)).sum)).sum
        = (users.map (fun v => if rankOf users v = some (k + 1)
            then subtreeCountF (buildHierarchy users) f v.id else 0)).sum := by
      unfold levelList
      rw [sum_filter_map (P := fun u => rankOf users u = some k)]
      have h4 : ∀ u ∈ users, (if rankOf users u = some k then (users.map (fun v =>
            if becomesChildOf users u.id v = true
            then subtreeCountF (buildHierarchy users) f v.id else 0)).sum else 0)
          = (users.map (fun v => if rankOf users u = some k then
              (if becomesChildOf users u.id v = true
               then subtreeCountF (buildHierarchy users) f v.id else 0) else 0)).sum := by
        intro u _
        exact ite_sum_push _ users _
      rw [List.map_congr_left h4, sum_map_comm]
      congr 1
      apply List.map_congr_left
      intro v hv
      exact child_indicator_sum users hnd hAll k v hv _
    rw [h3]
    have h5 : (users.map (fun v => if rankOf users v = some (k + 1)
          then subtreeCountF (buildHierarchy users) f v.id else 0)).sum
        = ((levelList users (k + 1)).map
            (fun u => subtreeCountF (buildHierarchy users) f u.id)).sum := by
      unfold levelList
      rw [sum_filter_map (P := fun u => rankOf users u = some (k + 1))]
    rw [h5, ih (k + 1)]
    rw [List.range_succ_eq_map, List.map_cons, List.sum_cons, List.map_map]
    have h6 : ((List.range f).map ((fun j => (levelList users (k + j)).length) ∘ Nat.succ))
        = (List.range f).map (fun j => (levelList users (k + 1 + j)).length) := by
      apply List.map_congr_left
      intro j _
      show (levelList users (k + Nat.succ j)).length = (levelList users (k + 1 + j)).length
      have he : k + Nat.succ j = k + 1 + j := by omega
      rw [he]
    rw [h6]
    have hk0 : k + 0 = k := by omega
    rw [hk0]

theorem rootFilter_eq_level_zero (users : List User) :
    users.filter (becomesRoot users) = levelList users 0 := by
  unfold levelList
  apply List.filter_congr
  intro u _
  rw [becomesRoot_eq]
  by_cases h : parentRef users u = none
  · rw [h]
    have h2 : rankOf users u = some 0 := (rankOf_zero_iff users u).mpr h
    simp [h2]
  · have h2 : rankOf users u ≠ some 0 := fun hc => h ((rankOf_zero_iff users u).mp hc)
    cases hp : parentRef users u with
    | none => exact absurd hp h
    | some m => simp [h2]

/-- Counterexample to claim C1 as stated: on a two-record manager cycle
the roots array is empty, so the recursive node count of the returned
forest is 0 at every cut-off, while the input length is 2. -/
theorem completeness_cycle_fails :
    (buildHierarchy [(⟨1, some 2, "a"⟩ : User), ⟨2, some 1, "b"⟩]).roots = []
    ∧ forestCount (buildHierarchy [(⟨1, some 2, "a"⟩ : User), ⟨2, some 1, "b"⟩]) 3 = 0
    ∧ ([(⟨1, some 2, "a"⟩ : User), ⟨2, some 1, "b"⟩] : List User).length = 2 := by
  refine ⟨by decide, by decide, by decide⟩

/-- Claim C1, amended: over inputs with pairwise distinct ids in which
every record's manager chain terminates (no record sits on or below a
manager cycle), the recursive node count of the returned forest,
evaluated with fuel exceeding every chain length, equals the input
length: every record appears exactly once. -/
theorem build_completeness (users : List User)
    (hnd : (users.map (fun u => u.id)).Nodup)
    (hAll : ∀ u ∈ users, (rankOf users u).isSome) :
    forestCount (buildHierarchy users) (users.length + 1) = users.length := by
  unfold forestCount
  rw [roots_eq, List.map_map, rootFilter_eq_level_zero]
  have hcomp : ((levelList users 0).map
        (subtreeCountF (buildHierarchy users) (users.length + 1) ∘ fun u => u.id)).sum
      = ((levelList users 0).map
        (fun u => subtreeCountF (buildHierarchy users) (users.length + 1) u.id)).sum := rfl
  rw [hcomp, level_sum users hnd hAll (users.length + 1) 0]
  have hz : ∀ j ∈ List.range (users.length + 1),
      (levelList users (0 + j)).length = (levelList users j).length := by
    intro j _
    have he : 0 + j = j := by omega
    rw [he]
  rw [List.map_congr_left hz]
  have hb : ∀ u ∈ users, ∃ r, rankOf users u = some r ∧ r < users.length + 1 := by
    intro u hu
    have hs := hAll u hu
    cases hr : rankOf users u with
    | none => rw [hr] at hs; exact absurd hs (by simp)
    | some r => exact ⟨r, rfl, rankF_lt users (users.length + 1) u r hr⟩
  have hq := length_eq_sum_level_lengths (fun u => rankOf users u) (users.length + 1) users hb
  unfold levelList
  exact hq

/-- Witness for build_completeness at a concrete three-record forest. -/
theorem build_completeness_witness :
    (([(⟨1, none, "a"⟩ : User), ⟨2, some 1, "b"⟩, ⟨3, some 1, "c"⟩].map (fun u => u.id)).Nodup)
    ∧ (∀ u ∈ [(⟨1, none, "a"⟩ : User), ⟨2, some 1, "b"⟩, ⟨3, some 1, "c"⟩],
        (rankOf [(⟨1, none, "a"⟩ : User), ⟨2, some 1, "b"⟩, ⟨3, some 1, "c"⟩] u).isSome)
    ∧ forestCount (buildHierarchy [(⟨1, none, "a"⟩ : User), ⟨2, some 1, "b"⟩, ⟨3, some 1, "c"⟩])
        ([(⟨1, none, "a"⟩ : User), ⟨2, some 1, "b"⟩, ⟨3, some 1, "c"⟩].length + 1)
        = [(⟨1, none, "a"⟩ : User), ⟨2, some 1, "b"⟩, ⟨3, some 1, "c"⟩].length :=
  ⟨by decide, by decide,
    build_completeness [(⟨1, none, "a"⟩ : User), ⟨2, some 1, "b"⟩, ⟨3, some 1, "c"⟩]
      (by decide) (by decide)⟩
